import Mathlib

set_option maxHeartbeats 1000000
set_option maxRecDepth 4000

/-!
Verification of the file-indexing and text-search core of the TypeGodMD
repository (`src-tauri/src/commands/files.rs` and
`src-tauri/src/commands/search.rs`).

Rust strings are modelled as lists of bytes (`ByteStr`); machine `usize`
values are modelled as `Nat` (no arithmetic here ever overflows or is taken
modulo anything in the source).  Filesystem reads, directory listings and
the external `regex` crate are external collaborators and are modelled as
explicit oracles/states passed to the embedded functions.  A Rust panic
(out-of-bounds slice) is modelled as `Option.none` in the result of the
function that panics.
-/

namespace TypeGodMD

/-- Byte strings: Rust `String` / `&str` values are modelled as their byte
sequences (`Nat` per byte). -/
abbrev ByteStr := List Nat

/-- Encode an ASCII Lean string literal as a byte list (every character of
the literals used in this file is ASCII, where `Char.toNat` is the byte). -/
def asciiBytes (s : String) : ByteStr := s.data.map Char.toNat

/-- Is `b` a UTF-8 continuation byte (`0x80`–`0xBF`)?  For a valid UTF-8
string, a byte index is a character boundary exactly when it is the length
of the string or the byte there is not a continuation byte; Rust's string
slicing panics on a non-boundary index. -/
def isContinuationByte (b : Nat) : Bool := 128 ≤ b && b ≤ 191

/-- UTF-8 decoding of a byte string into code points (total on valid
UTF-8, which is all a Rust `String` can hold; a truncated trailing
sequence is kept as its lead byte, a case that never arises below). -/
def utf8Decode : ByteStr → List Nat
  | [] => []
  | b :: rest =>
    if b < 128 then b :: utf8Decode rest
    else if b < 224 then
      match rest with
      | b2 :: rest2 => ((b - 192) * 64 + (b2 - 128)) :: utf8Decode rest2
      | [] => [b]
    else if b < 240 then
      match rest with
      | b2 :: b3 :: rest3 =>
        ((b - 224) * 4096 + (b2 - 128) * 64 + (b3 - 128)) :: utf8Decode rest3
      | _ => [b]
    else
      match rest with
      | b2 :: b3 :: b4 :: rest4 =>
        ((b - 240) * 262144 + (b2 - 128) * 4096 + (b3 - 128) * 64 + (b4 - 128))
          :: utf8Decode rest4
      | _ => [b]

/-- UTF-8 encoding of one code point. -/
def utf8EncodeChar (c : Nat) : ByteStr :=
  if c < 128 then [c]
  else if c < 2048 then [192 + c / 64, 128 + c % 64]
  else if c < 65536 then [224 + c / 4096, 128 + (c / 64) % 64, 128 + c % 64]
  else [240 + c / 262144, 128 + (c / 4096) % 64, 128 + (c / 64) % 64, 128 + c % 64]

/-- Per-character Unicode lowercasing (`char::to_lowercase`), on the code
points this development exercises: the ASCII letters, and the
length-changing mappings `'İ'` (U+0130 → `i` followed by combining dot
above U+0307) and the Kelvin sign `'K'` (U+212A → `k`); every other code
point is kept unchanged.  No statement below depends on the mapping of
any code point outside this set. -/
def lowerChar (c : Nat) : List Nat :=
  if 65 ≤ c ∧ c ≤ 90 then [c + 32]
  else if c = 304 then [105, 775]
  else if c = 8490 then [107]
  else [c]

/-- Model of Rust `str::to_lowercase`: decode the UTF-8 bytes, lowercase
each character (which may change the number of characters and of bytes),
re-encode.  In particular it is not length-preserving: `"İ"` (2 bytes)
lowercases to `"i̇"` (3 bytes). -/
def toLowercase (s : ByteStr) : ByteStr :=
  (((utf8Decode s).map lowerChar).flatten.map utf8EncodeChar).flatten

/-- Model of Rust `name.starts_with('.')`: first byte is `.` (46). -/
def startsWithDot (s : ByteStr) : Bool := s.head? == some 46

/-- Split a byte string on a separator byte (model of Rust `str::split(c)`;
always returns at least one piece). -/
def splitOnByte (b : Nat) : ByteStr → List ByteStr
  | [] => [[]]
  | c :: rest =>
    if c = b then [] :: splitOnByte b rest
    else
      match splitOnByte b rest with
      | [] => [[c]]
      | h :: t => (c :: h) :: t

/-- Lexicographic byte comparison: model of Rust `Ord` on `str`/`String`
(UTF-8 byte order). -/
def cmpBytes : ByteStr → ByteStr → Ordering
  | [], [] => .eq
  | [], _ :: _ => .lt
  | _ :: _, [] => .gt
  | a :: as, b :: bs =>
    match compare a b with
    | .eq => cmpBytes as bs
    | o => o

/-- Strip one trailing carriage return (13), as Rust `str::lines` does to a
line that was terminated by `\n`. -/
def stripCR (l : ByteStr) : ByteStr := if l.getLast? = some 13 then l.dropLast else l

/-- Worker for `rustLines`; `fuel ≥ s.length` always holds at every call, so
the `0`-fuel arm is unreachable (each step removes at least the terminator
byte from `s`). -/
def rustLinesAux : Nat → ByteStr → List ByteStr
  | _, [] => []
  | fuel, s =>
    let pre := s.takeWhile (fun b => b != 10)
    match s.dropWhile (fun b => b != 10) with
    | [] => [s]
    | _ :: rest =>
      match fuel with
      | 0 => []
      | fuel' + 1 => stripCR pre :: rustLinesAux fuel' rest

/-- Model of Rust `str::lines`: split at `\n`, strip one `\r` before each
`\n`, final line terminator optional (a final line not terminated by `\n`
keeps a trailing `\r`). -/
def rustLines (s : ByteStr) : List ByteStr := rustLinesAux s.length s

/-- Model of Rust `str::find(&str)`: byte index of the first occurrence of
`pat` in `hay` (`some 0` for the empty pattern). -/
def strFind (hay pat : ByteStr) : Option Nat :=
  if pat.isPrefixOf hay then some 0
  else
    match hay with
    | [] => none
    | _ :: t => (strFind t pat).map (· + 1)

/-- One iteration state of the plain-mode scan loop of `search_content`
(`search.rs` lines 95–101): `suffix = search_line[start..]`,
`base = start`.  Rust resumes at `abs_pos + 1`, and the slice
`search_line[start..]` taken at the next iteration panics either when
`start > search_line.len()` (the `suffix = []`-with-a-match case here) or
when `start` is not a UTF-8 character boundary (the byte there is a
continuation byte — the check before recursing); both panics are modelled
as `none`.  (A non-empty match can only start on a character boundary,
valid UTF-8 being self-synchronizing, so the byte-level `strFind` agrees
with `str::find` on the slices that are actually taken.)  `fuel` is only a
termination device: every recursive call strictly shrinks `suffix`, and
all callers supply `fuel ≥ suffix.length`, so the `0`-fuel arm is
unreachable. -/
def scanFrom (q : ByteStr) : Nat → ByteStr → Nat → Option (List (Nat × Nat))
  | _, [], _ =>
    match strFind [] q with
    | none => some []
    | some _ => none
  | 0, c :: t, _ =>
    match strFind (c :: t) q with
    | none => some []
    | some _ => none
  | fuel + 1, c :: t, base =>
    match strFind (c :: t) q with
    | none => some []
    | some pos =>
      if isContinuationByte (((c :: t).drop (pos + 1)).headD 0) then none
      else
        (scanFrom q fuel ((c :: t).drop (pos + 1)) (base + pos + 1)).map
          (fun rest => (base + pos, base + pos + q.length) :: rest)

/-- The plain-mode occurrence loop of `search_content` on one (already
case-folded) line: all `(start, end)` spans, scanning left to right and
resuming one byte after the start of the previous match; `none` models the
panic reached on an empty query. -/
def plainFound (searchLine searchQuery : ByteStr) : Option (List (Nat × Nat)) :=
  scanFrom searchQuery searchLine.length searchLine 0

/-- All byte positions of `s` at which `q` occurs (specification device used
to characterise `plainFound`). -/
def occPositions (s q : ByteStr) : List Nat :=
  (List.range (s.length + 1)).filter (fun p => q.isPrefixOf (s.drop p))

/-- The scan completes without panicking exactly when every occurrence's
resume position (one byte past the match start) is a character boundary:
the byte there, if any, is not a UTF-8 continuation byte (specification
device used to characterise `plainFound`). -/
def resumeOk (s q : ByteStr) : Bool :=
  (occPositions s q).all (fun p => !isContinuationByte (s.getD (p + 1) 0))

/-- Model of the `if case_sensitive { x } else { x.to_lowercase() }`
branches of `search_content`. -/
def caseFold (caseSensitive : Bool) (s : ByteStr) : ByteStr :=
  if caseSensitive then s else toLowercase s

/-! ### Filesystem tree model and the Tree Walker (`get_all_markdown_files`) -/

mutual
/-- A filesystem node: a regular file or a directory with an ordered list of
children (the order models the filesystem's enumeration order that `walkdir`
follows).  Symbolic links are not modelled (following them just makes the
walk see the linked subtree, which a plain subtree already represents). -/
inductive FsNode where
  | file : ByteStr → FsNode
  | dir : ByteStr → FsForest → FsNode

/-- An ordered sequence of sibling filesystem nodes. -/
inductive FsForest where
  | nil : FsForest
  | cons : FsNode → FsForest → FsForest
end

/-- Name of a node (its final path component). -/
def nodeName : FsNode → ByteStr
  | .file n => n
  | .dir n _ => n

/-- Model of `Path::is_file` on a walked entry. -/
def isFileNode : FsNode → Bool
  | .file _ => true
  | .dir _ _ => false

mutual
/-- Depth-first enumeration of `walkdir::WalkDir::new(dir_path)`: yields the
root entry itself first, then every descendant, children in order, each
paired with its full slash-joined path.  `p` is the full path of the node. -/
def walkFrom (p : ByteStr) : FsNode → List (ByteStr × FsNode)
  | .file n => [(p, FsNode.file n)]
  | .dir n cs => (p, FsNode.dir n cs) :: walkForest p cs

/-- Walks the children of a directory whose full path is `parent`. -/
def walkForest (parent : ByteStr) : FsForest → List (ByteStr × FsNode)
  | .nil => []
  | .cons c cs => walkFrom (parent ++ 47 :: nodeName c) c ++ walkForest parent cs
end

/-- Model of `Path::file_name` for slash-joined paths: the final
slash-separated component, `none` if it is empty. -/
def fileNameOf (p : ByteStr) : Option ByteStr :=
  (splitOnByte 47 p).getLast?.bind (fun l => if l = [] then none else some l)

/-- Model of Rust `Path::extension` applied to a file name: `none` when
there is no `.`, or when the name starts with `.` and contains no further
`.`; otherwise the part after the final `.`. -/
def rustExtension (name : ByteStr) : Option ByteStr :=
  match splitOnByte 46 name with
  | [] => none
  | [_] => none
  | first :: rest =>
    if first = [] ∧ rest.length = 1 then none
    else rest.getLast?

/-- Model of `Path::extension` on a full path (Rust applies it to the
file name). -/
def pathExtension (p : ByteStr) : Option ByteStr :=
  (fileNameOf p).bind rustExtension

/-- Embedding of `get_all_markdown_files` (`files.rs` lines 166–191): walk
the whole tree, skip every entry whose own file name starts with `.`
(the walk still descends into hidden directories — `continue` only skips
the entry itself), and collect regular files with extension `md`. -/
def get_all_markdown_files (dir_path : ByteStr) (root : FsNode) : List ByteStr :=
  (walkFrom dir_path root).filterMap fun pn =>
    if ((fileNameOf pn.1).map startsWithDot).getD false then none
    else if isFileNode pn.2 && (pathExtension pn.1 == some (asciiBytes "md")) then some pn.1
    else none

/-- Insert `x` after every element `y` of `acc` with `le y x` (so among
equal-ranked elements the later-inserted one comes later: stability). -/
def stableInsert (le : α → α → Bool) (x : α) : List α → List α
  | [] => [x]
  | y :: ys => if le y x then y :: stableInsert le x ys else x :: y :: ys

/-- Stable sort by repeated insertion, processing the input left to right.
Any stable sort agreeing with the comparator is observationally the Rust
`sort_by`; insertion sort is the simplest such model. -/
def stableSort (le : α → α → Bool) (l : List α) : List α :=
  l.foldl (fun acc x => stableInsert le x acc) []

/-- Embedding of the `FileMetadata` struct of `files.rs` (timestamps in
milliseconds since the Unix epoch, absent when not retrievable). -/
structure FileMetadata where
  size : Nat
  modified : Option Nat
  created : Option Nat
  accessed : Option Nat
deriving DecidableEq

/-- Embedding of the `FileEntry` struct of `files.rs`. -/
structure FileEntry where
  name : ByteStr
  path : ByteStr
  is_directory : Bool
  children : Option (List FileEntry)
  metadata : Option FileMetadata

/-- One raw entry as produced by `fs::read_dir` together with the results
of the filesystem queries `read_directory` performs on it: its file name,
its path, `Path::is_dir`, and the result of `get_file_metadata`
(`none` models a failed `fs::metadata` call). -/
structure RawEntry where
  name : ByteStr
  path : ByteStr
  isDir : Bool
  metadata : Option FileMetadata

/-- The state of the filesystem as observed by one `read_directory` call:
whether the argument path exists and is a directory, whether
`fs::read_dir` succeeds, the error text when it fails, and the raw
entries (an entry that is `none` models an `Err` item skipped by
`.flatten()`). -/
structure DirState where
  path : ByteStr
  pathExists : Bool
  isDir : Bool
  readOk : Bool
  readErr : ByteStr
  entries : List (Option RawEntry)

/-- Building one `FileEntry` from a raw entry, as the loop body of
`read_directory` does (`children` is `Some(vec![])` exactly for
directories). -/
def toFileEntry (e : RawEntry) : FileEntry :=
  { name := e.name, path := e.path, is_directory := e.isDir,
    children := if e.isDir then some [] else none, metadata := e.metadata }

/-- The pre-sort entry list of `read_directory`: `Err` entries flattened
away, hidden names skipped, each remaining entry converted. -/
def rawFileEntries (d : DirState) : List FileEntry :=
  (d.entries.filterMap id).filterMap fun e =>
    if startsWithDot e.name then none else some (toFileEntry e)

/-- The comparator of `read_directory`'s `sort_by` (`files.rs` lines
82–88): directories first, then case-insensitive name order. -/
def cmpEntry (a b : FileEntry) : Ordering :=
  match a.is_directory, b.is_directory with
  | true, false => .lt
  | false, true => .gt
  | _, _ => cmpBytes (toLowercase a.name) (toLowercase b.name)

/-- `a` may stay before `b` under the comparator (result not `Greater`),
which is what a (stable) `sort_by` guarantees of the output order. -/
def entryLe (a b : FileEntry) : Bool := cmpEntry a b != Ordering.gt

/-- Embedding of `read_directory`: existence and directory checks, then the
listing (hidden entries skipped, per-entry metadata best-effort), then the
stable sort. -/
def read_directory (d : DirState) : Except ByteStr (List FileEntry) :=
  if d.pathExists = false then
    .error (asciiBytes "Directory does not exist: " ++ d.path)
  else if d.isDir = false then
    .error (asciiBytes "Path is not a directory: " ++ d.path)
  else if d.readOk = false then
    .error (asciiBytes "Failed to read directory: " ++ d.readErr)
  else
    .ok (stableSort entryLe (rawFileEntries d))

/-- Look up the contents stored at a path, in a filesystem modelled as a
path-to-contents association list (later entries shadowed by earlier
ones); directories are abstracted away (`create_dir_all` of parents is
modelled as always succeeding). -/
def fsLookup : List (ByteStr × ByteStr) → ByteStr → Option ByteStr
  | [], _ => none
  | (q, c) :: rest, p => if q = p then some c else fsLookup rest p

/-- Embedding of `write_file`: create parent directories (abstracted), then
`fs::write` stores exactly the given bytes at the path. -/
def write_file (st : List (ByteStr × ByteStr)) (path content : ByteStr) :
    List (ByteStr × ByteStr) × Except ByteStr Unit :=
  ((path, content) :: st, .ok ())

/-- Embedding of `read_file`: `fs::read_to_string`, an error if the path
has no stored contents. -/
def read_file (st : List (ByteStr × ByteStr)) (path : ByteStr) : Except ByteStr ByteStr :=
  match fsLookup st path with
  | some c => .ok c
  | none => .error (asciiBytes "Failed to read file: No such file or directory")

/-- A compiled regular expression of the external `regex` crate, modelled
by its observable behaviour: `findIter line` is the list of
`(start, end)` byte spans `find_iter` reports on `line`. -/
structure RegexModel where
  findIter : ByteStr → List (Nat × Nat)

/-- Embedding of the `SearchMatch` struct of `search.rs`. -/
structure SearchMatch where
  line_number : Nat
  line_content : ByteStr
  match_start : Nat
  match_end : Nat
deriving DecidableEq

/-- Embedding of the `SearchResult` struct of `search.rs`. -/
structure SearchResult where
  path : ByteStr
  name : ByteStr
  «matches» : List SearchMatch
deriving DecidableEq

/-- Model of `content.lines().enumerate()`: pair each line with its 0-based
index, starting at `i`. -/
def numberLines (i : Nat) : List ByteStr → List (Nat × ByteStr)
  | [] => []
  | l :: ls => (i, l) :: numberLines (i + 1) ls

/-- The per-line `line_matches` computation of `search_content`
(`search.rs` lines 75–103): regex mode consults the compiled pattern (an
uncompiled pattern yields no matches), plain mode runs the case-folded
occurrence loop (`none` models its panic). -/
def lineMatchesOf (useRegex caseSensitive : Bool) (pattern : Option RegexModel)
    (query line : ByteStr) : Option (List (Nat × Nat)) :=
  if useRegex then
    some (match pattern with
      | some re => re.findIter line
      | none => [])
  else
    plainFound (caseFold caseSensitive line) (caseFold caseSensitive query)

/-- Turn the spans of one line into `SearchMatch` values (`search.rs` lines
105–112): 1-based line number, the original line as `line_content`. -/
def toMatches (lineNum : Nat) (line : ByteStr) (lms : List (Nat × Nat)) : List SearchMatch :=
  lms.map fun se =>
    { line_number := lineNum + 1, line_content := line,
      match_start := se.1, match_end := se.2 }

/-- The per-file loop over numbered lines, accumulating all matches in line
order (`none` propagates the plain-mode panic). -/
def fileMatchesAux (useRegex caseSensitive : Bool) (pattern : Option RegexModel)
    (query : ByteStr) : List (Nat × ByteStr) → Option (List SearchMatch)
  | [] => some []
  | (i, line) :: rest =>
    match lineMatchesOf useRegex caseSensitive pattern query line with
    | none => none
    | some lms =>
      (fileMatchesAux useRegex caseSensitive pattern query rest).map
        (fun ms => toMatches i line lms ++ ms)

/-- All matches of one file's contents. -/
def fileMatches (useRegex caseSensitive : Bool) (pattern : Option RegexModel)
    (query content : ByteStr) : Option (List SearchMatch) :=
  fileMatchesAux useRegex caseSensitive pattern query (numberLines 0 (rustLines content))

/-- Model of `file_path.split('/').last().unwrap_or(&file_path)`
(`search.rs` lines 116–120); `split` always yields at least one piece, so
the default is never used. -/
def basenameOf (fp : ByteStr) : ByteStr := (splitOnByte 47 fp).getLast?.getD fp

/-- Processing of one file of the walk: a failed read skips the file, a
file with matches contributes one `SearchResult` (`search.rs` lines
66–128).  The outer `none` models a panic, the inner `none` a skipped or
matchless file. -/
def fileStep (useRegex caseSensitive : Bool) (pattern : Option RegexModel)
    (query : ByteStr) (readFile : ByteStr → Option ByteStr) (fp : ByteStr) :
    Option (Option SearchResult) :=
  match readFile fp with
  | none => some none
  | some content =>
    match fileMatches useRegex caseSensitive pattern query content with
    | none => none
    | some ms =>
      if ms = [] then some none
      else some (some { path := fp, name := basenameOf fp, «matches» := ms })

/-- The `for file_path in files` loop, in walk order. -/
def collectAux (step : ByteStr → Option (Option SearchResult)) :
    List ByteStr → Option (List SearchResult)
  | [] => some []
  | fp :: rest =>
    match step fp with
    | none => none
    | some o =>
      (collectAux step rest).map (fun l => o.toList ++ l)

/-- The pattern compilation of `search_content` (`search.rs` lines 55–64):
in regex mode the query is compiled once, wrapped in `(?i)` when matching
case-insensitively; `compile` models `Regex::new` (`none` = compile
error). -/
def patternOf (compile : ByteStr → Option RegexModel) (useRegex caseSensitive : Bool)
    (query : ByteStr) : Option RegexModel :=
  if useRegex then
    compile (if caseSensitive then query else asciiBytes "(?i)" ++ query)
  else none

/-- The whole collection phase of `search_content`, before sorting: one
optional `SearchResult` per walked file, in the Tree Walker's enumeration
order. -/
def collectResults (compile : ByteStr → Option RegexModel)
    (readFile : ByteStr → Option ByteStr) (directory : ByteStr) (tree : FsNode)
    (query : ByteStr) (case_sensitive regex_search : Option Bool) :
    Option (List SearchResult) :=
  collectAux
    (fileStep (regex_search.getD false) (case_sensitive.getD false)
      (patternOf compile (regex_search.getD false) (case_sensitive.getD false) query)
      query readFile)
    (get_all_markdown_files directory tree)

/-- The comparator of `search_content`'s `sort_by` (`search.rs` line 131):
`b.matches.len().cmp(&a.matches.len())`, i.e. descending match count. -/
def cmpResults (a b : SearchResult) : Ordering :=
  compare b.«matches».length a.«matches».length

/-- `a` may stay before `b` under the ranking comparator. -/
def resultLe (a b : SearchResult) : Bool := cmpResults a b != Ordering.gt

/-- The final ranking sort of `search_content`. -/
def sortResults (l : List SearchResult) : List SearchResult :=
  stableSort resultLe l

/-- Embedding of `search_content`: walk, per-file scan, ranking.  The Rust
function always returns `Ok`; `none` models the panic reached in plain
mode with an empty query. -/
def search_content (compile : ByteStr → Option RegexModel)
    (readFile : ByteStr → Option ByteStr) (directory : ByteStr) (tree : FsNode)
    (query : ByteStr) (case_sensitive regex_search : Option Bool) :
    Option (Except ByteStr (List SearchResult)) :=
  (collectResults compile readFile directory tree query case_sensitive regex_search).map
    fun l => Except.ok (sortResults l)

/-- Well-formedness of the regex oracle actually guaranteed by the `regex`
crate: every span reported by `find_iter` lies inside the line, as a
half-open byte range. -/
def RegexSpanOk (compile : ByteStr → Option RegexModel) : Prop :=
  ∀ p re, compile p = some re →
    ∀ line s e, (s, e) ∈ re.findIter line → s ≤ e ∧ e ≤ line.length

/-- Well-formedness of the regex oracle actually guaranteed by the `regex`
crate: `find_iter` reports non-overlapping matches left to right, so the
start offsets are strictly increasing. -/
def RegexOrderOk (compile : ByteStr → Option RegexModel) : Prop :=
  ∀ p re, compile p = some re →
    ∀ line, (re.findIter line).Pairwise (fun a b => a.1 < b.1)

/-- A one-file tree `r/a.md`. -/
def exTree : FsNode := .dir (asciiBytes "r") (.cons (.file (asciiBytes "a.md")) .nil)

/-- File contents for `exTree`: `r/a.md` holds `"ab AB"`. -/
def exRead : ByteStr → Option ByteStr :=
  fun p => if p = asciiBytes "r/a.md" then some (asciiBytes "ab AB") else none

/-- A regex oracle on which every pattern fails to compile. -/
def exCompile : ByteStr → Option RegexModel := fun _ => none

/-- The ranking scenario of the spec: files `B.md`, `C.md`, `A.md` in
traversal order. -/
def rankTree : FsNode :=
  .dir (asciiBytes "r")
    (.cons (.file (asciiBytes "B.md"))
      (.cons (.file (asciiBytes "C.md"))
        (.cons (.file (asciiBytes "A.md")) .nil)))

/-- Contents for `rankTree`: B and C have 1 match for `"x"`, A has 3. -/
def rankRead : ByteStr → Option ByteStr := fun p =>
  if p = asciiBytes "r/B.md" then some (asciiBytes "x")
  else if p = asciiBytes "r/C.md" then some (asciiBytes "x")
  else if p = asciiBytes "r/A.md" then some (asciiBytes "x x x")
  else none

/-- A directory with an unreadable entry (`none`), a hidden entry, a
subdirectory, and two files whose names are out of order. -/
def exDirState : DirState where
  path := asciiBytes "/tmp/d"
  pathExists := true
  isDir := true
  readOk := true
  readErr := []
  entries :=
    [some ⟨asciiBytes "b.txt", asciiBytes "/tmp/d/b.txt", false, none⟩,
     none,
     some ⟨asciiBytes ".hidden", asciiBytes "/tmp/d/.hidden", false, some ⟨1, none, none, none⟩⟩,
     some ⟨asciiBytes "A", asciiBytes "/tmp/d/A", true, some ⟨0, some 5, none, none⟩⟩,
     some ⟨asciiBytes "a.txt", asciiBytes "/tmp/d/a.txt", false, some ⟨2, none, none, none⟩⟩]

/-! ### Lemmas about `strFind` -/

theorem strFind_some {hay pat : ByteStr} {i : Nat} (h : strFind hay pat = some i) :
    pat <+: hay.drop i ∧ ∀ j < i, ¬ pat <+: hay.drop j := by
  induction hay generalizing i with
  | nil =>
    unfold strFind at h
    by_cases hp : pat.isPrefixOf [] = true
    · simp [hp] at h
      subst h
      exact ⟨by simpa using hp, by omega⟩
    · simp [strFind, hp] at h
  | cons c t ih =>
    unfold strFind at h
    by_cases hp : pat.isPrefixOf (c :: t) = true
    · simp [hp] at h
      subst h
      exact ⟨by simpa using hp, by omega⟩
    · simp [hp] at h
      obtain ⟨i', hi', rfl⟩ := h
      obtain ⟨h1, h2⟩ := ih hi'
      refine ⟨h1, ?_⟩
      intro j hj
      cases j with
      | zero =>
        simp only [List.isPrefixOf_iff_prefix] at hp
        simpa using hp
      | succ j' => exact h2 j' (by omega)

theorem strFind_none {hay pat : ByteStr} (h : strFind hay pat = none) :
    ∀ j, ¬ pat <+: hay.drop j := by
  induction hay with
  | nil =>
    intro j
    unfold strFind at h
    by_cases hp : pat.isPrefixOf [] = true
    · simp [hp] at h
    · simp only [List.isPrefixOf_iff_prefix] at hp
      simpa using hp
  | cons c t ih =>
    intro j
    unfold strFind at h
    by_cases hp : pat.isPrefixOf (c :: t) = true
    · simp [hp] at h
    · simp [hp] at h
      cases j with
      | zero =>
        simp only [List.isPrefixOf_iff_prefix] at hp
        simpa using hp
      | succ j' => exact ih h j'

/-! ### Characterisation of the plain-mode scan -/

theorem occPositions_split {suffix q : ByteStr} {pos : Nat} (hq : q ≠ [])
    (hpre : q <+: suffix.drop pos) (hmin : ∀ j < pos, ¬ q <+: suffix.drop j) :
    occPositions suffix q =
      pos :: (occPositions (suffix.drop (pos + 1)) q).map (fun p => pos + 1 + p) := by
  have hposlt : pos < suffix.length := by
    by_contra hge
    have : suffix.drop pos = [] := List.drop_eq_nil_of_le (by omega)
    rw [this] at hpre
    exact hq (List.prefix_nil.mp hpre)
  have hlen : suffix.length + 1 = (pos + 1) + (suffix.length - pos) := by omega
  unfold occPositions
  rw [hlen, List.range_add, List.filter_append]
  have h1 : (List.range (pos + 1)).filter (fun p => q.isPrefixOf (suffix.drop p)) = [pos] := by
    rw [List.range_succ, List.filter_append]
    have h10 : (List.range pos).filter (fun p => q.isPrefixOf (suffix.drop p)) = [] := by
      rw [List.filter_eq_nil_iff]
      intro j hj
      rw [List.mem_range] at hj
      simp only [Bool.not_eq_true, List.isPrefixOf_iff_prefix]
      exact fun hc => hmin j hj (by simpa using hc)
    rw [h10]
    simp [List.isPrefixOf_iff_prefix, hpre]
  rw [h1]
  have h2 : (List.map (fun p => pos + 1 + p) (List.range (suffix.length - pos))).filter
      (fun p => q.isPrefixOf (suffix.drop p)) =
      ((List.range (suffix.length - pos)).filter
        (fun p => q.isPrefixOf ((suffix.drop (pos + 1)).drop p))).map (fun p => pos + 1 + p) := by
    rw [List.filter_map]
    congr 1
    apply List.filter_congr
    intro j _
    simp only [Function.comp]
    rw [List.drop_drop]
  rw [h2]
  have h3 : (suffix.drop (pos + 1)).length + 1 = suffix.length - pos := by
    rw [List.length_drop]
    omega
  rw [h3]
  simp

theorem occPositions_nil_of_none {s q : ByteStr} (h : strFind s q = none) :
    occPositions s q = [] := by
  rw [occPositions, List.filter_eq_nil_iff]
  intro j hj
  simp only [Bool.not_eq_true, List.isPrefixOf_iff_prefix]
  intro hc
  exact absurd (by simpa using hc) (strFind_none h j)

theorem strFind_nil_eq_none {q : ByteStr} (hq : q ≠ []) : strFind ([] : ByteStr) q = none := by
  cases q with
  | nil => exact absurd rfl hq
  | cons a as => rfl

theorem getD_drop (l : ByteStr) (n i : Nat) : (l.drop n).getD i 0 = l.getD (n + i) 0 := by
  rw [List.getD_eq_getElem?_getD, List.getD_eq_getElem?_getD, List.getElem?_drop]

theorem headD_drop (l : ByteStr) (n : Nat) : (l.drop n).headD 0 = l.getD n 0 := by
  rw [List.headD_eq_head?_getD, List.head?_eq_getElem?, List.getElem?_drop,
    List.getD_eq_getElem?_getD, Nat.add_zero]

theorem resumeOk_split {suffix q : ByteStr} {pos : Nat} (hq : q ≠ [])
    (hpre : q <+: suffix.drop pos) (hmin : ∀ j < pos, ¬ q <+: suffix.drop j) :
    resumeOk suffix q =
      ((!isContinuationByte (suffix.getD (pos + 1) 0)) &&
        resumeOk (suffix.drop (pos + 1)) q) := by
  unfold resumeOk
  rw [occPositions_split hq hpre hmin, List.all_cons, List.all_map]
  have hfun : ((fun p => !isContinuationByte (suffix.getD (p + 1) 0)) ∘ fun p => pos + 1 + p)
      = (fun p => !isContinuationByte ((suffix.drop (pos + 1)).getD (p + 1) 0)) := by
    funext j
    simp only [Function.comp]
    rw [getD_drop]
    have h5 : pos + 1 + j + 1 = pos + 1 + (j + 1) := by omega
    rw [h5]
  rw [hfun]

theorem scanFrom_eq {q : ByteStr} (hq : q ≠ []) :
    ∀ fuel suffix base, suffix.length ≤ fuel →
      scanFrom q fuel suffix base =
        if resumeOk suffix q then
          some ((occPositions suffix q).map (fun p => (base + p, base + p + q.length)))
        else none := by
  intro fuel
  induction fuel with
  | zero =>
    intro suffix base hlen
    have hsfx : suffix = [] := List.eq_nil_of_length_eq_zero (by omega)
    subst hsfx
    have hocc := occPositions_nil_of_none (strFind_nil_eq_none hq)
    have hro : resumeOk [] q = true := by rw [resumeOk, hocc]; rfl
    unfold scanFrom
    rw [strFind_nil_eq_none hq, if_pos hro, hocc]
    rfl
  | succ fuel' ih =>
    intro suffix base hlen
    cases suffix with
    | nil =>
      have hocc := occPositions_nil_of_none (strFind_nil_eq_none hq)
      have hro : resumeOk [] q = true := by rw [resumeOk, hocc]; rfl
      unfold scanFrom
      rw [strFind_nil_eq_none hq, if_pos hro, hocc]
      rfl
    | cons c t =>
      cases hfind : strFind (c :: t) q with
      | none =>
        have hocc := occPositions_nil_of_none hfind
        have hro : resumeOk (c :: t) q = true := by rw [resumeOk, hocc]; rfl
        unfold scanFrom
        rw [hfind, if_pos hro, hocc]
        rfl
      | some pos =>
        obtain ⟨hpre, hmin⟩ := strFind_some hfind
        have hsro := resumeOk_split hq hpre hmin
        have hb : ((c :: t).drop (pos + 1)).headD 0 = (c :: t).getD (pos + 1) 0 :=
          headD_drop _ _
        unfold scanFrom
        simp only [hfind]
        rw [hb]
        cases hcont : isContinuationByte ((c :: t).getD (pos + 1) 0) with
        | true =>
          rw [if_pos rfl]
          have hro : resumeOk (c :: t) q = false := by
            rw [hsro, hcont]
            rfl
          rw [if_neg (by simp [hro])]
        | false =>
          rw [if_neg (by simp)]
          have hrec := ih ((c :: t).drop (pos + 1)) (base + pos + 1)
            (by simp only [List.length_drop]; simp at hlen ⊢; omega)
          rw [hrec]
          cases hro2 : resumeOk ((c :: t).drop (pos + 1)) q with
          | false =>
            rw [if_neg (by simp)]
            have hro : resumeOk (c :: t) q = false := by
              rw [hsro, hcont, hro2]
              rfl
            rw [if_neg (by simp [hro])]
            rfl
          | true =>
            rw [if_pos rfl]
            have hro : resumeOk (c :: t) q = true := by
              rw [hsro, hcont, hro2]
              rfl
            rw [if_pos hro]
            simp only [Option.map_some']
            rw [occPositions_split hq hpre hmin]
            simp only [List.map_cons, List.map_map]
            congr 2
            apply List.map_congr_left
            intro p _
            have h5 : base + pos + 1 + p = base + (pos + 1 + p) := by omega
            rw [h5]
            simp [Function.comp]

theorem scanFrom_nil_query :
    ∀ fuel suffix base, suffix.length ≤ fuel → scanFrom ([] : ByteStr) fuel suffix base = none := by
  intro fuel
  induction fuel with
  | zero =>
    intro suffix base hlen
    have hsfx : suffix = [] := List.eq_nil_of_length_eq_zero (by omega)
    subst hsfx
    rfl
  | succ fuel' ih =>
    intro suffix base hlen
    cases suffix with
    | nil => rfl
    | cons c t =>
      have hfind : strFind (c :: t) ([] : ByteStr) = some 0 := rfl
      unfold scanFrom
      simp only [hfind]
      have hrec := ih t (base + 0 + 1) (by simp at hlen; omega)
      cases hb : isContinuationByte (((c :: t).drop (0 + 1)).headD 0) with
      | true => rw [if_pos rfl]
      | false =>
        rw [if_neg (by simp)]
        simp [hrec]

/-- For a non-empty query the plain-mode loop either panics (when some
occurrence resumes off a character boundary) or reports exactly the set of
all occurrence positions, in increasing order, each span being
`(p, p + query.length)`. -/
theorem plainFound_eq {sl sq : ByteStr} (hq : sq ≠ []) :
    plainFound sl sq =
      if resumeOk sl sq then
        some ((occPositions sl sq).map fun p => (p, p + sq.length))
      else none := by
  rw [plainFound, scanFrom_eq hq sl.length sl 0 (Nat.le_refl _)]
  cases hro : resumeOk sl sq with
  | false =>
    rw [if_neg (by simp), if_neg (by simp)]
  | true =>
    rw [if_pos rfl, if_pos rfl]
    congr 1
    apply List.map_congr_left
    intro p _
    simp

/-- With an empty query the plain-mode loop always panics (out-of-bounds
slice `search_line[start..]` after the scan walks past the end). -/
theorem plainFound_nil_query (sl : ByteStr) : plainFound sl [] = none :=
  scanFrom_nil_query sl.length sl 0 (Nat.le_refl _)

theorem occPositions_sorted (s q : ByteStr) : (occPositions s q).Pairwise (· < ·) :=
  (List.pairwise_lt_range _).filter _

theorem occPositions_mem {s q : ByteStr} {p : Nat} (h : p ∈ occPositions s q) :
    q <+: s.drop p := by
  rw [occPositions, List.mem_filter] at h
  simpa using h.2

theorem stableInsert_eq (le : α → α → Bool) (x : α) (acc : List α) :
    stableInsert le x acc =
      acc.takeWhile (fun y => le y x) ++ x :: acc.dropWhile (fun y => le y x) := by
  induction acc with
  | nil => rfl
  | cons y ys ih =>
    by_cases h : le y x = true
    · simp [stableInsert, h, List.takeWhile_cons, List.dropWhile_cons, ih]
    · rw [Bool.not_eq_true] at h
      simp [stableInsert, h, List.takeWhile_cons, List.dropWhile_cons]

theorem stableInsert_perm (le : α → α → Bool) (x : α) (acc : List α) :
    (stableInsert le x acc).Perm (x :: acc) := by
  rw [stableInsert_eq]
  calc (acc.takeWhile (fun y => le y x) ++ x :: acc.dropWhile (fun y => le y x)).Perm
        (x :: (acc.takeWhile (fun y => le y x) ++ acc.dropWhile (fun y => le y x))) :=
        List.perm_middle
    _ = x :: acc := by rw [List.takeWhile_append_dropWhile]

theorem stableInsert_pairwise (le : α → α → Bool)
    (htot : ∀ a b, le a b = true ∨ le b a = true)
    (htrans : ∀ a b c, le a b = true → le b c = true → le a c = true)
    (x : α) (acc : List α) (h : acc.Pairwise (fun a b => le a b = true)) :
    (stableInsert le x acc).Pairwise (fun a b => le a b = true) := by
  induction acc with
  | nil => simp [stableInsert]
  | cons y ys ih =>
    rw [List.pairwise_cons] at h
    obtain ⟨hy, hys⟩ := h
    by_cases hxy : le y x = true
    · simp only [stableInsert, hxy, if_true]
      rw [List.pairwise_cons]
      refine ⟨?_, ih hys⟩
      intro z hz
      have hmem := (stableInsert_perm le x ys).mem_iff.mp hz
      rcases List.mem_cons.mp hmem with hzx | hzys
      · subst hzx; exact hxy
      · exact hy z hzys
    · rw [Bool.not_eq_true] at hxy
      simp only [stableInsert, hxy, Bool.false_eq_true, if_false]
      rw [List.pairwise_cons]
      refine ⟨?_, by rw [List.pairwise_cons]; exact ⟨hy, hys⟩⟩
      intro z hz
      rcases List.mem_cons.mp hz with hzy | hzys
      · subst hzy
        rcases htot x z with h1 | h1
        · exact h1
        · rw [hxy] at h1; cases h1
      · rcases htot x z with h1 | h1
        · exact h1
        · exfalso
          have : le y x = true := htrans y z x (hy z hzys) h1
          rw [hxy] at this; cases this

theorem dropWhile_head_not {p : α → Bool} {l : List α} {z : α} {zs : List α}
    (h : l.dropWhile p = z :: zs) : p z = false := by
  induction l with
  | nil => simp [List.dropWhile] at h
  | cons a as ih =>
    rw [List.dropWhile_cons] at h
    by_cases hp : p a = true
    · rw [hp] at h; simp at h; exact ih h
    · rw [Bool.not_eq_true] at hp
      rw [hp] at h
      simp at h
      rw [← h.1]
      exact hp

theorem stableInsert_filter (le : α → α → Bool) (p : α → Bool)
    (htrans : ∀ a b c, le a b = true → le b c = true → le a c = true)
    (hp : ∀ a b, p a = true → p b = true → le a b = true)
    (x : α) (acc : List α) (hs : acc.Pairwise (fun a b => le a b = true)) :
    (stableInsert le x acc).filter p =
      acc.filter p ++ (if p x then [x] else []) := by
  rw [stableInsert_eq, List.filter_append, List.filter_cons]
  have hacc : acc.filter p =
      (acc.takeWhile (fun y => le y x)).filter p ++ (acc.dropWhile (fun y => le y x)).filter p := by
    conv_lhs => rw [← List.takeWhile_append_dropWhile (p := fun y => le y x) (l := acc)]
    rw [List.filter_append]
  by_cases hpx : p x = true
  · have hdrop : (acc.dropWhile (fun y => le y x)).filter p = [] := by
      rw [List.filter_eq_nil_iff]
      intro z hz
      cases hD : acc.dropWhile (fun y => le y x) with
      | nil => rw [hD] at hz; cases hz
      | cons z₀ zs =>
        rw [hD] at hz
        have hz₀ : le z₀ x = false := dropWhile_head_not (p := fun y => le y x) hD
        have hDpw : (z₀ :: zs).Pairwise (fun a b => le a b = true) := by
          rw [← hD]
          exact hs.sublist (List.dropWhile_sublist _)
        intro hpz
        rcases List.mem_cons.mp hz with rfl | hzs
        · have := hp z x hpz hpx
          rw [hz₀] at this; cases this
        · have h1 : le z₀ z = true := by
            rw [List.pairwise_cons] at hDpw
            exact hDpw.1 z hzs
          have h2 : le z x = true := hp z x hpz hpx
          have := htrans z₀ z x h1 h2
          rw [hz₀] at this; cases this
    rw [hpx] at *
    simp only [if_true]
    rw [hacc, hdrop]
    simp
  · rw [Bool.not_eq_true] at hpx
    rw [hpx]
    simp only [Bool.false_eq_true, if_false]
    rw [hacc]
    simp

theorem foldl_insert_perm (le : α → α → Bool) :
    ∀ (l acc : List α),
      (List.foldl (fun acc x => stableInsert le x acc) acc l).Perm (acc ++ l) := by
  intro l
  induction l with
  | nil => intro acc; simp
  | cons x xs ih =>
    intro acc
    rw [List.foldl_cons]
    have h1 := ih (stableInsert le x acc)
    have h2 : (stableInsert le x acc ++ xs).Perm (acc ++ x :: xs) :=
      ((stableInsert_perm le x acc).append_right xs).trans List.perm_middle.symm
    exact h1.trans h2

theorem foldl_insert_pairwise (le : α → α → Bool)
    (htot : ∀ a b, le a b = true ∨ le b a = true)
    (htrans : ∀ a b c, le a b = true → le b c = true → le a c = true) :
    ∀ (l acc : List α), acc.Pairwise (fun a b => le a b = true) →
      (List.foldl (fun acc x => stableInsert le x acc) acc l).Pairwise
        (fun a b => le a b = true) := by
  intro l
  induction l with
  | nil => intro acc hacc; simpa using hacc
  | cons x xs ih =>
    intro acc hacc
    rw [List.foldl_cons]
    exact ih _ (stableInsert_pairwise le htot htrans x acc hacc)

theorem foldl_insert_filter (le : α → α → Bool) (p : α → Bool)
    (htot : ∀ a b, le a b = true ∨ le b a = true)
    (htrans : ∀ a b c, le a b = true → le b c = true → le a c = true)
    (hp : ∀ a b, p a = true → p b = true → le a b = true) :
    ∀ (l acc : List α), acc.Pairwise (fun a b => le a b = true) →
      (List.foldl (fun acc x => stableInsert le x acc) acc l).filter p =
        acc.filter p ++ l.filter p := by
  intro l
  induction l with
  | nil => intro acc _; simp
  | cons x xs ih =>
    intro acc hacc
    rw [List.foldl_cons, ih _ (stableInsert_pairwise le htot htrans x acc hacc),
      stableInsert_filter le p htrans hp x acc hacc, List.filter_cons]
    by_cases hpx : p x = true
    · rw [hpx]; simp
    · rw [Bool.not_eq_true] at hpx; rw [hpx]; simp

theorem stableSort_perm (le : α → α → Bool) (l : List α) :
    (stableSort le l).Perm l := by
  have := foldl_insert_perm le l []
  simpa [stableSort] using this

theorem stableSort_pairwise (le : α → α → Bool)
    (htot : ∀ a b, le a b = true ∨ le b a = true)
    (htrans : ∀ a b c, le a b = true → le b c = true → le a c = true)
    (l : List α) :
    (stableSort le l).Pairwise (fun a b => le a b = true) :=
  foldl_insert_pairwise le htot htrans l [] (by simp)

theorem stableSort_filter (le : α → α → Bool) (p : α → Bool)
    (htot : ∀ a b, le a b = true ∨ le b a = true)
    (htrans : ∀ a b c, le a b = true → le b c = true → le a c = true)
    (hp : ∀ a b, p a = true → p b = true → le a b = true)
    (l : List α) :
    (stableSort le l).filter p = l.filter p := by
  have := foldl_insert_filter le p htot htrans hp l [] (by simp)
  simpa [stableSort] using this

/-! ### Lemmas about `cmpBytes` -/

theorem cmpBytes_eq_iff : ∀ {a b : ByteStr}, cmpBytes a b = .eq ↔ a = b := by
  intro a
  induction a with
  | nil =>
    intro b
    cases b <;> simp [cmpBytes]
  | cons x xs ih =>
    intro b
    cases b with
    | nil => simp [cmpBytes]
    | cons y ys =>
      simp only [cmpBytes]
      rcases h : compare x y with _ | _ | _ <;>
        simp only [Nat.compare_eq_lt, Nat.compare_eq_eq, Nat.compare_eq_gt] at h
      · constructor
        · intro hcc
          cases hcc
        · intro hcc
          injection hcc with h1 h2
          exact absurd h1 (by omega)
      · subst h
        show cmpBytes xs ys = Ordering.eq ↔ _
        rw [ih]
        simp
      · constructor
        · intro hcc
          cases hcc
        · intro hcc
          injection hcc with h1 h2
          exact absurd h1 (by omega)

theorem cmpBytes_swap : ∀ (a b : ByteStr), cmpBytes a b = (cmpBytes b a).swap := by
  intro a
  induction a with
  | nil =>
    intro b
    cases b <;> rfl
  | cons x xs ih =>
    intro b
    cases b with
    | nil => rfl
    | cons y ys =>
      simp only [cmpBytes]
      rcases hxy : compare x y with _ | _ | _ <;>
        rcases hyx : compare y x with _ | _ | _ <;>
        simp only [Nat.compare_eq_lt, Nat.compare_eq_eq, Nat.compare_eq_gt] at hxy hyx
      · exfalso; omega
      · exfalso; omega
      · rfl
      · exfalso; omega
      · exact ih ys
      · exfalso; omega
      · rfl
      · exfalso; omega
      · exfalso; omega

theorem cmpBytes_lt_trans :
    ∀ {a b c : ByteStr}, cmpBytes a b = .lt → cmpBytes b c = .lt → cmpBytes a c = .lt := by
  intro a
  induction a with
  | nil =>
    intro b c hab hbc
    cases b with
    | nil => cases hab
    | cons y ys =>
      cases c with
      | nil => cases hbc
      | cons z zs => rfl
  | cons x xs ih =>
    intro b c hab hbc
    cases b with
    | nil => cases hab
    | cons y ys =>
      cases c with
      | nil => cases hbc
      | cons z zs =>
        simp only [cmpBytes] at hab hbc ⊢
        rcases hxy : compare x y with _ | _ | _ <;> rw [hxy] at hab <;>
          rcases hyz : compare y z with _ | _ | _ <;> rw [hyz] at hbc <;>
          simp only [Nat.compare_eq_lt, Nat.compare_eq_eq, Nat.compare_eq_gt] at hxy hyz
        · rw [Nat.compare_eq_lt.mpr (show x < z by omega)]
        · rw [Nat.compare_eq_lt.mpr (show x < z by omega)]
        · cases hbc
        · rw [Nat.compare_eq_lt.mpr (show x < z by omega)]
        · rw [Nat.compare_eq_eq.mpr (show x = z by omega)]
          exact ih hab hbc
        · cases hbc
        · cases hab
        · cases hab
        · cases hab

theorem cmpBytes_le_trans {a b c : ByteStr}
    (hab : cmpBytes a b ≠ .gt) (hbc : cmpBytes b c ≠ .gt) : cmpBytes a c ≠ .gt := by
  rcases h1 : cmpBytes a b with hc | hc | hc
  · rcases h2 : cmpBytes b c with hd | hd | hd
    · have := cmpBytes_lt_trans h1 h2
      rw [this]; simp
    · have : b = c := cmpBytes_eq_iff.mp h2
      subst this
      rw [h1]; simp
    · exact absurd h2 hbc
  · have : a = b := cmpBytes_eq_iff.mp h1
    subst this
    exact hbc
  · exact absurd h1 hab

theorem cmpBytes_total {a b : ByteStr}
    (h : cmpBytes a b = .gt) : cmpBytes b a ≠ .gt := by
  rw [cmpBytes_swap] at h
  rcases h2 : cmpBytes b a with hc | hc | hc <;> rw [h2] at h <;> simp_all [Ordering.swap]

/-! ### Structural lemmas about the content-search pipeline -/

theorem lineMatchesOf_sorted {uR cS : Bool} {pat : Option RegexModel} {q line : ByteStr}
    {lms : List (Nat × Nat)}
    (hpat : ∀ re, pat = some re → ∀ l, (re.findIter l).Pairwise (fun a b => a.1 < b.1))
    (h : lineMatchesOf uR cS pat q line = some lms) :
    lms.Pairwise (fun a b => a.1 < b.1) := by
  unfold lineMatchesOf at h
  by_cases hr : uR = true
  · rw [hr] at h
    simp only [if_true] at h
    cases hp : pat with
    | none =>
      rw [hp] at h
      injection h with h
      subst h
      simp
    | some re =>
      rw [hp] at h
      injection h with h
      subst h
      exact hpat re hp line
  · rw [Bool.not_eq_true] at hr
    rw [hr] at h
    simp only [Bool.false_eq_true, if_false] at h
    by_cases hq : caseFold cS q = []
    · rw [hq, plainFound_nil_query] at h
      cases h
    · rw [plainFound_eq hq] at h
      cases hro : resumeOk (caseFold cS line) (caseFold cS q) with
      | false =>
        rw [if_neg (by simp [hro])] at h
        cases h
      | true =>
        rw [if_pos hro] at h
        injection h with h
        subst h
        refine List.Pairwise.map _ ?_ (occPositions_sorted _ _)
        intro a b hab
        simpa using hab

theorem lineMatchesOf_spans {uR cS : Bool} {pat : Option RegexModel} {q line : ByteStr}
    {lms : List (Nat × Nat)}
    (hpat : ∀ re, pat = some re → ∀ l s e, (s, e) ∈ re.findIter l → s ≤ e ∧ e ≤ l.length)
    (h : lineMatchesOf uR cS pat q line = some lms) :
    ∀ se ∈ lms, se.1 ≤ se.2 ∧
      (uR = true → se.2 ≤ line.length) ∧
      (uR = false →
        se.2 ≤ (caseFold cS line).length ∧
        se.2 - se.1 = (caseFold cS q).length ∧
        ((caseFold cS line).drop se.1).take (se.2 - se.1) = caseFold cS q) := by
  unfold lineMatchesOf at h
  by_cases hr : uR = true
  · rw [hr] at h
    simp only [if_true] at h
    cases hp : pat with
    | none =>
      rw [hp] at h
      injection h with h
      subst h
      intro se hse
      cases hse
    | some re =>
      rw [hp] at h
      injection h with h
      subst h
      intro se hse
      obtain ⟨s, e⟩ := se
      obtain ⟨h1, h2⟩ := hpat re hp line s e hse
      refine ⟨h1, fun _ => h2, ?_⟩
      rw [hr]
      intro hc
      cases hc
  · rw [Bool.not_eq_true] at hr
    rw [hr] at h
    simp only [Bool.false_eq_true, if_false] at h
    by_cases hq : caseFold cS q = []
    · rw [hq, plainFound_nil_query] at h
      cases h
    · rw [plainFound_eq hq] at h
      cases hro : resumeOk (caseFold cS line) (caseFold cS q) with
      | false =>
        rw [if_neg (by simp [hro])] at h
        cases h
      | true =>
        rw [if_pos hro] at h
        injection h with h
        subst h
        intro se hse
        rw [List.mem_map] at hse
        obtain ⟨p, hp, rfl⟩ := hse
        have hpre : caseFold cS q <+: (caseFold cS line).drop p := occPositions_mem hp
        have hq1 : 0 < (caseFold cS q).length := List.length_pos.mpr hq
        have hlen : p + (caseFold cS q).length ≤ (caseFold cS line).length := by
          have h1 := hpre.length_le
          rw [List.length_drop] at h1
          omega
        refine ⟨by simp, ?_, ?_⟩
        · rw [hr]
          intro hc
          cases hc
        · intro _
          refine ⟨by simpa using hlen, by simp, ?_⟩
          have htake : ((caseFold cS line).drop p).take (caseFold cS q).length
              = caseFold cS q := (List.prefix_iff_eq_take.mp hpre).symm
          simpa using htake

theorem numberLines_mem {i : Nat} {ls : List ByteStr} {j : Nat} {line : ByteStr}
    (h : (j, line) ∈ numberLines i ls) : i ≤ j ∧ ls[j - i]? = some line := by
  induction ls generalizing i with
  | nil => cases h
  | cons l ls ih =>
    rw [numberLines] at h
    rcases List.mem_cons.mp h with heq | hmem
    · injection heq with h1 h2
      subst h1
      subst h2
      simp
    · obtain ⟨h1, h2⟩ := ih hmem
      refine ⟨by omega, ?_⟩
      have hji : j - i = (j - (i + 1)) + 1 := by omega
      rw [hji]
      simpa using h2

theorem numberLines_pairwise (i : Nat) (ls : List ByteStr) :
    (numberLines i ls).Pairwise (fun a b => a.1 < b.1) := by
  induction ls generalizing i with
  | nil => simp [numberLines]
  | cons l ls ih =>
    rw [numberLines, List.pairwise_cons]
    refine ⟨?_, ih (i + 1)⟩
    intro z hz
    obtain ⟨j, line⟩ := z
    have := (numberLines_mem hz).1
    simpa using by omega

theorem fileMatchesAux_mem {uR cS : Bool} {pat : Option RegexModel} {q : ByteStr}
    {pairs : List (Nat × ByteStr)} {ms : List SearchMatch}
    (h : fileMatchesAux uR cS pat q pairs = some ms) {m : SearchMatch} (hm : m ∈ ms) :
    ∃ i line lms, (i, line) ∈ pairs ∧
      lineMatchesOf uR cS pat q line = some lms ∧
      (m.match_start, m.match_end) ∈ lms ∧ m.line_number = i + 1 ∧ m.line_content = line := by
  induction pairs generalizing ms with
  | nil =>
    rw [fileMatchesAux] at h
    injection h with h
    subst h
    cases hm
  | cons p rest ih =>
    obtain ⟨i, line⟩ := p
    rw [fileMatchesAux] at h
    cases hl : lineMatchesOf uR cS pat q line with
    | none => rw [hl] at h; cases h
    | some lms =>
      rw [hl] at h
      cases hrec : fileMatchesAux uR cS pat q rest with
      | none => rw [hrec] at h; cases h
      | some ms' =>
        rw [hrec] at h
        injection h with h
        subst h
        rcases List.mem_append.mp hm with h1 | h2
        · rw [toMatches, List.mem_map] at h1
          obtain ⟨se, hse, heq⟩ := h1
          refine ⟨i, line, lms, List.mem_cons_self _ _, hl, ?_, ?_, ?_⟩
          · rw [← heq]
            simpa using hse
          · rw [← heq]
          · rw [← heq]
        · obtain ⟨i', line', lms', hmem, hl', hse', hln', hlc'⟩ := ih hrec h2
          exact ⟨i', line', lms', List.mem_cons_of_mem _ hmem, hl', hse', hln', hlc'⟩

theorem fileMatchesAux_sorted {uR cS : Bool} {pat : Option RegexModel} {q : ByteStr}
    {pairs : List (Nat × ByteStr)} {ms : List SearchMatch}
    (h : fileMatchesAux uR cS pat q pairs = some ms)
    (hline : ∀ i line lms, (i, line) ∈ pairs →
      lineMatchesOf uR cS pat q line = some lms → lms.Pairwise (fun a b => a.1 < b.1))
    (hidx : pairs.Pairwise (fun a b => a.1 < b.1)) :
    ms.Pairwise (fun m1 m2 => m1.line_number ≤ m2.line_number ∧
      (m1.line_number = m2.line_number → m1.match_start < m2.match_start)) := by
  induction pairs generalizing ms with
  | nil =>
    rw [fileMatchesAux] at h
    injection h with h
    subst h
    simp
  | cons p rest ih =>
    obtain ⟨i, line⟩ := p
    rw [fileMatchesAux] at h
    cases hl : lineMatchesOf uR cS pat q line with
    | none => rw [hl] at h; cases h
    | some lms =>
      rw [hl] at h
      cases hrec : fileMatchesAux uR cS pat q rest with
      | none => rw [hrec] at h; cases h
      | some ms' =>
        rw [hrec] at h
        injection h with h
        subst h
        rw [List.pairwise_cons] at hidx
        obtain ⟨hidx1, hidx2⟩ := hidx
        rw [List.pairwise_append]
        refine ⟨?_, ?_, ?_⟩
        · rw [toMatches]
          refine List.Pairwise.map _ ?_
            (hline i line lms (List.mem_cons_self _ _) hl)
          intro a b hab
          exact ⟨Nat.le_refl _, fun _ => hab⟩
        · exact ih hrec
            (fun i' line' lms' hmem hl' => hline i' line' lms' (List.mem_cons_of_mem _ hmem) hl')
            hidx2
        · intro m1 hm1 m2 hm2
          rw [toMatches, List.mem_map] at hm1
          obtain ⟨se, _, heq1⟩ := hm1
          obtain ⟨i', line', lms', hmem', _, _, hln', _⟩ := fileMatchesAux_mem hrec hm2
          have hii' : i < i' := hidx1 (i', line') hmem'
          have hm1ln : m1.line_number = i + 1 := by rw [← heq1]
          constructor
          · omega
          · intro hc
            omega

theorem fileStep_some {uR cS : Bool} {pat : Option RegexModel} {q : ByteStr}
    {readFile : ByteStr → Option ByteStr} {fp : ByteStr} {r : SearchResult}
    (h : fileStep uR cS pat q readFile fp = some (some r)) :
    ∃ content ms, readFile fp = some content ∧
      fileMatches uR cS pat q content = some ms ∧ ms ≠ [] ∧
      r = ⟨fp, basenameOf fp, ms⟩ := by
  cases hrf : readFile fp with
  | none => simp [fileStep, hrf] at h
  | some content =>
    cases hfm : fileMatches uR cS pat q content with
    | none => simp [fileStep, hrf, hfm] at h
    | some ms =>
      simp only [fileStep, hrf, hfm] at h
      by_cases hms : ms = []
      · rw [if_pos hms] at h
        simp at h
      · rw [if_neg hms] at h
        injection h with h
        injection h with h
        exact ⟨content, ms, rfl, hfm, hms, h.symm⟩

theorem collectAux_mem {step : ByteStr → Option (Option SearchResult)}
    {files : List ByteStr} {l : List SearchResult}
    (h : collectAux step files = some l) {r : SearchResult} (hr : r ∈ l) :
    ∃ fp ∈ files, step fp = some (some r) := by
  induction files generalizing l with
  | nil =>
    rw [collectAux] at h
    injection h with h
    subst h
    cases hr
  | cons fp rest ih =>
    rw [collectAux] at h
    cases ho : step fp with
    | none => rw [ho] at h; cases h
    | some o =>
      rw [ho] at h
      cases hrec : collectAux step rest with
      | none => rw [hrec] at h; cases h
      | some l' =>
        rw [hrec] at h
        injection h with h
        subst h
        rcases List.mem_append.mp hr with h1 | h2
        · cases o with
          | none => cases h1
          | some r' =>
            have : r = r' := by simpa [Option.toList] using h1
            subst this
            exact ⟨fp, List.mem_cons_self _ _, ho⟩
        · obtain ⟨fp', hfp', hstep'⟩ := ih hrec h2
          exact ⟨fp', List.mem_cons_of_mem _ hfp', hstep'⟩

/-! ### Comparator facts -/

theorem resultLe_iff (a b : SearchResult) :
    resultLe a b = true ↔ b.«matches».length ≤ a.«matches».length := by
  unfold resultLe cmpResults
  rcases h : compare b.«matches».length a.«matches».length with _ | _ | _ <;>
    simp only [Nat.compare_eq_lt, Nat.compare_eq_eq, Nat.compare_eq_gt] at h
  · exact iff_of_true (by decide) (Nat.le_of_lt h)
  · exact iff_of_true (by decide) (Nat.le_of_eq h)
  · exact iff_of_false (by decide) (by omega)

theorem resultLe_total (a b : SearchResult) :
    resultLe a b = true ∨ resultLe b a = true := by
  rcases Nat.le_total b.«matches».length a.«matches».length with h | h
  · exact Or.inl ((resultLe_iff a b).mpr h)
  · exact Or.inr ((resultLe_iff b a).mpr h)

theorem resultLe_trans (a b c : SearchResult)
    (h1 : resultLe a b = true) (h2 : resultLe b c = true) : resultLe a c = true := by
  rw [resultLe_iff] at h1 h2 ⊢
  omega

theorem resultLe_count_compat (k : Nat) (a b : SearchResult)
    (ha : (a.«matches».length == k) = true) (hb : (b.«matches».length == k) = true) :
    resultLe a b = true := by
  rw [beq_iff_eq] at ha hb
  rw [resultLe_iff]
  omega

theorem cmpEntry_same_kind {a b : FileEntry} (h : a.is_directory = b.is_directory) :
    cmpEntry a b = cmpBytes (toLowercase a.name) (toLowercase b.name) := by
  unfold cmpEntry
  cases ha : a.is_directory <;> cases hb : b.is_directory <;> simp_all

theorem entryLe_dir {a b : FileEntry} (h : entryLe a b = true)
    (hb : b.is_directory = true) : a.is_directory = true := by
  by_contra hc
  rw [Bool.not_eq_true] at hc
  have : cmpEntry a b = .gt := by
    unfold cmpEntry
    rw [hc, hb]
  rw [entryLe, this] at h
  cases h

theorem entryLe_name {a b : FileEntry} (h : entryLe a b = true)
    (hk : a.is_directory = b.is_directory) :
    cmpBytes (toLowercase a.name) (toLowercase b.name) ≠ .gt := by
  rw [entryLe] at h
  rw [cmpEntry_same_kind hk] at h
  intro hc
  rw [hc] at h
  cases h

theorem entryLe_of_names {a b : FileEntry} (hk : a.is_directory = b.is_directory)
    (h : cmpBytes (toLowercase a.name) (toLowercase b.name) ≠ .gt) :
    entryLe a b = true := by
  rw [entryLe, cmpEntry_same_kind hk]
  rcases hc : cmpBytes (toLowercase a.name) (toLowercase b.name) with _ | _ | _
  · rfl
  · rfl
  · exact absurd hc h

theorem entryLe_total (a b : FileEntry) :
    entryLe a b = true ∨ entryLe b a = true := by
  cases ha : a.is_directory <;> cases hb : b.is_directory
  · rcases hc : cmpBytes (toLowercase a.name) (toLowercase b.name) with _ | _ | _
    · exact Or.inl (entryLe_of_names (by rw [ha, hb]) (by rw [hc]; intro h; cases h))
    · exact Or.inl (entryLe_of_names (by rw [ha, hb]) (by rw [hc]; intro h; cases h))
    · exact Or.inr (entryLe_of_names (by rw [ha, hb]) (cmpBytes_total hc))
  · exact Or.inr (by rw [entryLe]; unfold cmpEntry; rw [ha, hb]; rfl)
  · exact Or.inl (by rw [entryLe]; unfold cmpEntry; rw [ha, hb]; rfl)
  · rcases hc : cmpBytes (toLowercase a.name) (toLowercase b.name) with _ | _ | _
    · exact Or.inl (entryLe_of_names (by rw [ha, hb]) (by rw [hc]; intro h; cases h))
    · exact Or.inl (entryLe_of_names (by rw [ha, hb]) (by rw [hc]; intro h; cases h))
    · exact Or.inr (entryLe_of_names (by rw [ha, hb]) (cmpBytes_total hc))

theorem entryLe_trans (a b c : FileEntry)
    (h1 : entryLe a b = true) (h2 : entryLe b c = true) : entryLe a c = true := by
  cases hc : c.is_directory
  · cases ha : a.is_directory
    · -- a, c both files; then b is a file too
      cases hb : b.is_directory
      · exact entryLe_of_names (by rw [ha, hc])
          (cmpBytes_le_trans (entryLe_name h1 (by rw [ha, hb]))
            (entryLe_name h2 (by rw [hb, hc])))
      · exfalso
        have := entryLe_dir h1 hb
        rw [ha] at this
        cases this
    · -- a directory, c file: Less
      rw [entryLe]
      unfold cmpEntry
      rw [ha, hc]
      rfl
  · -- c directory: then b and a are directories
    have hb := entryLe_dir h2 hc
    have ha := entryLe_dir h1 hb
    exact entryLe_of_names (by rw [ha, hc])
      (cmpBytes_le_trans (entryLe_name h1 (by rw [ha, hb]))
        (entryLe_name h2 (by rw [hb, hc])))

theorem entryLe_compat (b : Bool) (v : ByteStr) (x y : FileEntry)
    (hx : (x.is_directory == b && (toLowercase x.name == v)) = true)
    (hy : (y.is_directory == b && (toLowercase y.name == v)) = true) :
    entryLe x y = true := by
  rw [Bool.and_eq_true, beq_iff_eq, beq_iff_eq] at hx hy
  refine entryLe_of_names (by rw [hx.1, hy.1]) ?_
  rw [hx.2, hy.2]
  rw [cmpBytes_eq_iff.mpr rfl]
  intro h
  cases h

/-! ### Shared unfolding of a successful `search_content` call -/

theorem search_content_some {compile : ByteStr → Option RegexModel}
    {readFile : ByteStr → Option ByteStr} {directory : ByteStr} {tree : FsNode}
    {query : ByteStr} {cs rs : Option Bool} {l : List SearchResult}
    (h : search_content compile readFile directory tree query cs rs = some (.ok l)) :
    ∃ l₀, collectResults compile readFile directory tree query cs rs = some l₀ ∧
      l = sortResults l₀ := by
  rw [search_content] at h
  cases hc : collectResults compile readFile directory tree query cs rs with
  | none => rw [hc] at h; cases h
  | some l₀ =>
    rw [hc] at h
    simp only [Option.map_some'] at h
    injection h with h
    injection h with h
    exact ⟨l₀, rfl, h.symm⟩

/-- C1 — the claim is the spec's intent and the code violates it
(`code_bug`): `get_all_markdown_files` only skips a hidden entry itself
and still descends into hidden directories, so a markdown file inside a
hidden directory IS returned; its path has a component starting with
`.`. -/
theorem get_all_markdown_files_enters_hidden_dir :
    get_all_markdown_files (asciiBytes "root")
        (.dir (asciiBytes "root")
          (.cons (.dir (asciiBytes ".h") (.cons (.file (asciiBytes "a.md")) .nil)) .nil))
      = [asciiBytes "root/.h/a.md"] ∧
    (splitOnByte 47 (asciiBytes "root/.h/a.md")).any startsWithDot = true :=
  ⟨rfl, by decide⟩

/-- C2 — the claim is the spec's intent and the code violates it
(`code_bug`): in plain mode with the empty query, `search_content` does
not produce zero matches; the scan loop slices `search_line[start..]` past
the end of the line and panics (modelled as `none`) on the first file with
at least one line. -/
theorem search_content_empty_query_panics :
    search_content exCompile
      (fun p => if p = asciiBytes "r/a.md" then some (asciiBytes "a") else none)
      (asciiBytes "r") exTree [] none none = none := rfl

/-- C3 — counterexample to the claim as stated: on the line `"éé"`
(bytes `C3 A9 C3 A9`) with query `"é"` there are occurrences at 0 and 2,
but after the first match the scan resumes at byte offset 1, which is not
a character boundary, so the slice `search_line[1..]` panics (modelled as
`none`) instead of reporting the two occurrences. -/
theorem plainFound_panics_on_multibyte :
    plainFound [195, 169, 195, 169] [195, 169] = none ∧
    occPositions [195, 169, 195, 169] [195, 169] = [0, 2] :=
  ⟨rfl, by decide⟩

/-- C3 (amended): in plain mode, for every (case-folded) line and
non-empty query, if every occurrence's resume position (one byte after the
match start) is a character boundary, then the scan reports exactly all
occurrence positions, left to right, as spans `(p, p + query.length)` — so
overlapping repeats are each counted; otherwise the program panics at the
non-boundary slice.  On ASCII data the boundary condition always holds. -/
theorem plainFound_all_occurrences (searchLine searchQuery : ByteStr)
    (hq : searchQuery ≠ []) :
    plainFound searchLine searchQuery =
      if resumeOk searchLine searchQuery then
        some ((occPositions searchLine searchQuery).map
          (fun p => (p, p + searchQuery.length)))
      else none :=
  plainFound_eq hq

/-- C3 witness: line `"aaa"`, query `"aa"` yields exactly the two
overlapping matches `(0,2)` and `(1,3)`. -/
theorem plainFound_all_occurrences_witness :
    plainFound (asciiBytes "aaa") (asciiBytes "aa") = some [(0, 2), (1, 3)] :=
  (plainFound_all_occurrences (asciiBytes "aaa") (asciiBytes "aa") (by decide)).trans
    (by decide)

/-- C4 — counterexample to the claim as stated: searching the file text
`"İ"` (U+0130, bytes `C4 B0`) for the query `"i̇"` (bytes `69 CC 87`)
case-insensitively lowercases the line to `"i̇"` (3 bytes) and records the
span `(0, 3)`, so `match_end = 3` exceeds the 2-byte length of
`line_content` — the offsets index the lowercased line, not
`line_content`. -/
theorem search_content_match_end_exceeds_line_content :
    search_content exCompile
      (fun p => if p = asciiBytes "r/a.md" then some [196, 176] else none)
      (asciiBytes "r") exTree [105, 204, 135] none none
      = some (.ok [⟨asciiBytes "r/a.md", asciiBytes "a.md", [⟨1, [196, 176], 0, 3⟩]⟩]) ∧
    ¬ ((⟨1, [196, 176], 0, 3⟩ : SearchMatch).match_end ≤
        (⟨1, [196, 176], 0, 3⟩ : SearchMatch).line_content.length) :=
  ⟨rfl, by decide⟩

/-- C4 (amended): every `SearchMatch` of a successful `search_content`
call has `match_start ≤ match_end`, a 1-based `line_number` addressing the
stored line `line_content`, and its offsets are byte offsets into the
searched text: in regex mode that is the line itself
(`match_end ≤ line_content.length`, given that the external regex engine
reports in-line spans), while in plain mode it is the case-folded copy of
the line — `match_end` is bounded by the folded line's length (equal to
the line's own length in the case-sensitive branch, where no folding
happens), the span is as wide as the folded query, and the folded bytes it
selects spell the folded query. -/
theorem search_content_match_wellformed (compile : ByteStr → Option RegexModel)
    (readFile : ByteStr → Option ByteStr) (directory : ByteStr) (tree : FsNode)
    (query : ByteStr) (cs rs : Option Bool) (l : List SearchResult)
    (hre : RegexSpanOk compile)
    (h : search_content compile readFile directory tree query cs rs = some (.ok l))
    (r : SearchResult) (hr : r ∈ l) (m : SearchMatch) (hm : m ∈ r.«matches») :
    1 ≤ m.line_number ∧
    m.match_start ≤ m.match_end ∧
    (∃ content, readFile r.path = some content ∧
      (rustLines content)[m.line_number - 1]? = some m.line_content) ∧
    (rs.getD false = true → m.match_end ≤ m.line_content.length) ∧
    (rs.getD false = false →
      m.match_end ≤ (caseFold (cs.getD false) m.line_content).length ∧
      m.match_end - m.match_start = (caseFold (cs.getD false) query).length ∧
      ((caseFold (cs.getD false) m.line_content).drop m.match_start).take
        (m.match_end - m.match_start) = caseFold (cs.getD false) query) := by
  obtain ⟨l₀, hc, rfl⟩ := search_content_some h
  have hr₀ : r ∈ l₀ := (stableSort_perm resultLe l₀).mem_iff.mp hr
  rw [collectResults] at hc
  obtain ⟨fp, _, hstep⟩ := collectAux_mem hc hr₀
  obtain ⟨content, ms, hrf, hfm, hne, rfl⟩ := fileStep_some hstep
  rw [fileMatches] at hfm
  obtain ⟨i, line, lms, hpair, hl, hse, hln, hlc⟩ := fileMatchesAux_mem hfm hm
  obtain ⟨_, hidx⟩ := numberLines_mem hpair
  have hpat : ∀ re,
      patternOf compile (rs.getD false) (cs.getD false) query = some re →
      ∀ l' s e, (s, e) ∈ re.findIter l' → s ≤ e ∧ e ≤ l'.length := by
    intro re h2
    rw [patternOf] at h2
    by_cases hur : rs.getD false = true
    · rw [if_pos hur] at h2
      exact hre _ re h2
    · rw [Bool.not_eq_true] at hur
      rw [hur] at h2
      cases h2
  have hspans := lineMatchesOf_spans hpat hl (m.match_start, m.match_end) hse
  refine ⟨by omega, hspans.1, ⟨content, hrf, ?_⟩, ?_, ?_⟩
  · rw [hln, hlc]
    simpa using hidx
  · intro hur
    rw [hlc]
    exact hspans.2.1 hur
  · intro hur
    rw [hlc]
    exact hspans.2.2 hur

/-- C4 witness: the case-insensitive plain search for `"ab"` over
`r/a.md` = `"ab AB"`. -/
theorem search_content_match_wellformed_witness :
    1 ≤ (⟨1, asciiBytes "ab AB", 0, 2⟩ : SearchMatch).line_number ∧
    (⟨1, asciiBytes "ab AB", 0, 2⟩ : SearchMatch).match_start ≤
      (⟨1, asciiBytes "ab AB", 0, 2⟩ : SearchMatch).match_end ∧
    (∃ content, exRead (⟨asciiBytes "r/a.md", asciiBytes "a.md",
        [⟨1, asciiBytes "ab AB", 0, 2⟩, ⟨1, asciiBytes "ab AB", 3, 5⟩]⟩ : SearchResult).path
        = some content ∧
      (rustLines content)[(⟨1, asciiBytes "ab AB", 0, 2⟩ : SearchMatch).line_number - 1]?
        = some (⟨1, asciiBytes "ab AB", 0, 2⟩ : SearchMatch).line_content) ∧
    ((none : Option Bool).getD false = true →
      (⟨1, asciiBytes "ab AB", 0, 2⟩ : SearchMatch).match_end ≤
        (⟨1, asciiBytes "ab AB", 0, 2⟩ : SearchMatch).line_content.length) ∧
    ((none : Option Bool).getD false = false →
      (⟨1, asciiBytes "ab AB", 0, 2⟩ : SearchMatch).match_end ≤
        (caseFold ((none : Option Bool).getD false)
          (⟨1, asciiBytes "ab AB", 0, 2⟩ : SearchMatch).line_content).length ∧
      (⟨1, asciiBytes "ab AB", 0, 2⟩ : SearchMatch).match_end -
        (⟨1, asciiBytes "ab AB", 0, 2⟩ : SearchMatch).match_start =
          (caseFold ((none : Option Bool).getD false) (asciiBytes "ab")).length ∧
      ((caseFold ((none : Option Bool).getD false)
          (⟨1, asciiBytes "ab AB", 0, 2⟩ : SearchMatch).line_content).drop
            (⟨1, asciiBytes "ab AB", 0, 2⟩ : SearchMatch).match_start).take
          ((⟨1, asciiBytes "ab AB", 0, 2⟩ : SearchMatch).match_end -
            (⟨1, asciiBytes "ab AB", 0, 2⟩ : SearchMatch).match_start)
        = caseFold ((none : Option Bool).getD false) (asciiBytes "ab")) :=
  search_content_match_wellformed exCompile exRead (asciiBytes "r") exTree
    (asciiBytes "ab") none none
    [⟨asciiBytes "r/a.md", asciiBytes "a.md",
      [⟨1, asciiBytes "ab AB", 0, 2⟩, ⟨1, asciiBytes "ab AB", 3, 5⟩]⟩]
    (fun p re hfail => nomatch hfail) rfl
    _ (by decide) _ (by decide)

/-- C5: in regex mode an uncompilable pattern degrades to a successful
empty result list; the compiled pattern is the query itself when
case-sensitive and the `(?i)`-wrapped query otherwise. -/
theorem search_content_regex_failure_empty (compile : ByteStr → Option RegexModel)
    (readFile : ByteStr → Option ByteStr) (directory : ByteStr) (tree : FsNode)
    (query : ByteStr) (cs : Option Bool)
    (h : compile (if cs.getD false then query else asciiBytes "(?i)" ++ query) = none) :
    search_content compile readFile directory tree query cs (some true) =
      some (.ok []) := by
  have hpat : patternOf compile ((some true : Option Bool).getD false) (cs.getD false) query
      = none := by
    rw [patternOf]
    simpa using h
  have hline : ∀ line, lineMatchesOf true (cs.getD false) none query line = some [] := by
    intro line
    rfl
  have hfm : ∀ pairs, fileMatchesAux true (cs.getD false) none query pairs = some [] := by
    intro pairs
    induction pairs with
    | nil => rfl
    | cons p rest ih =>
      obtain ⟨i, line⟩ := p
      rw [fileMatchesAux, hline, ih]
      rfl
  have hstep : ∀ fp, fileStep true (cs.getD false) none query readFile fp = some none := by
    intro fp
    rw [fileStep]
    cases readFile fp with
    | none => rfl
    | some content =>
      simp [fileMatches, hfm]
  have hcol : ∀ files, collectAux (fileStep true (cs.getD false) none query readFile) files
      = some [] := by
    intro files
    induction files with
    | nil => rfl
    | cons fp rest ih =>
      rw [collectAux, hstep, ih]
      rfl
  rw [search_content, collectResults]
  simp only [Option.getD_some] at hpat ⊢
  rw [hpat, hcol]
  rfl

/-- C5 witness: the unbalanced pattern `"("` over a tree with
matching-looking text returns `Ok([])`. -/
theorem search_content_regex_failure_empty_witness :
    search_content exCompile (fun _ => some (asciiBytes "hello (world)"))
      (asciiBytes "r") exTree (asciiBytes "(") none (some true) = some (.ok []) :=
  search_content_regex_failure_empty exCompile _ _ _ (asciiBytes "(") none rfl

/-- C6: the output of `search_content` is the stable descending sort of
the collection list by match count: counts are non-increasing along the
output, and for every count value the subsequence of results with that
count is exactly the one of the pre-sort (walk-ordered) collection. -/
theorem search_content_ranking (compile : ByteStr → Option RegexModel)
    (readFile : ByteStr → Option ByteStr) (directory : ByteStr) (tree : FsNode)
    (query : ByteStr) (cs rs : Option Bool) (l₀ l : List SearchResult)
    (h₀ : collectResults compile readFile directory tree query cs rs = some l₀)
    (h : search_content compile readFile directory tree query cs rs = some (.ok l)) :
    l = sortResults l₀ ∧
    l.Pairwise (fun a b => b.«matches».length ≤ a.«matches».length) ∧
    ∀ k, l.filter (fun r => r.«matches».length == k) =
      l₀.filter (fun r => r.«matches».length == k) := by
  obtain ⟨l₁, hc, rfl⟩ := search_content_some h
  rw [h₀] at hc
  injection hc with hc
  subst hc
  refine ⟨rfl, ?_, ?_⟩
  · exact (stableSort_pairwise resultLe resultLe_total resultLe_trans l₀).imp
      (fun hab => (resultLe_iff _ _).mp hab)
  · intro k
    exact stableSort_filter resultLe _ resultLe_total resultLe_trans
      (resultLe_count_compat k) l₀

/-- C6 witness: files B (1 match), C (1), A (3) in traversal order
B, C, A produce A first, then B and C in their original relative
order. -/
theorem search_content_ranking_witness :
    sortResults ((collectResults exCompile rankRead (asciiBytes "r") rankTree
        (asciiBytes "x") none none).getD []) =
      [⟨asciiBytes "r/A.md", asciiBytes "A.md",
        [⟨1, asciiBytes "x x x", 0, 1⟩, ⟨1, asciiBytes "x x x", 2, 3⟩,
         ⟨1, asciiBytes "x x x", 4, 5⟩]⟩,
       ⟨asciiBytes "r/B.md", asciiBytes "B.md", [⟨1, asciiBytes "x", 0, 1⟩]⟩,
       ⟨asciiBytes "r/C.md", asciiBytes "C.md", [⟨1, asciiBytes "x", 0, 1⟩]⟩] ∧
    (sortResults ((collectResults exCompile rankRead (asciiBytes "r") rankTree
        (asciiBytes "x") none none).getD [])).Pairwise
      (fun a b => b.«matches».length ≤ a.«matches».length) ∧
    (sortResults ((collectResults exCompile rankRead (asciiBytes "r") rankTree
        (asciiBytes "x") none none).getD [])).filter
        (fun r => r.«matches».length == 1) =
      ((collectResults exCompile rankRead (asciiBytes "r") rankTree
        (asciiBytes "x") none none).getD []).filter
        (fun r => r.«matches».length == 1) := by
  obtain ⟨h1, h2, h3⟩ := search_content_ranking exCompile rankRead (asciiBytes "r")
    rankTree (asciiBytes "x") none none
    ((collectResults exCompile rankRead (asciiBytes "r") rankTree
      (asciiBytes "x") none none).getD [])
    (sortResults ((collectResults exCompile rankRead (asciiBytes "r") rankTree
      (asciiBytes "x") none none).getD []))
    rfl rfl
  exact ⟨by decide, h2, h3 1⟩

/-- C10: every `SearchResult` of a successful `search_content` call has a
non-empty match list, ordered so that line numbers are non-decreasing and,
within one line, match starts are strictly increasing (given that the
external regex engine reports matches left to right). -/
theorem search_content_matches_ordered (compile : ByteStr → Option RegexModel)
    (readFile : ByteStr → Option ByteStr) (directory : ByteStr) (tree : FsNode)
    (query : ByteStr) (cs rs : Option Bool) (l : List SearchResult)
    (hro : RegexOrderOk compile)
    (h : search_content compile readFile directory tree query cs rs = some (.ok l))
    (r : SearchResult) (hr : r ∈ l) :
    r.«matches» ≠ [] ∧
    r.«matches».Pairwise (fun m1 m2 => m1.line_number ≤ m2.line_number ∧
      (m1.line_number = m2.line_number → m1.match_start < m2.match_start)) := by
  obtain ⟨l₀, hc, rfl⟩ := search_content_some h
  have hr₀ : r ∈ l₀ := (stableSort_perm resultLe l₀).mem_iff.mp hr
  rw [collectResults] at hc
  obtain ⟨fp, _, hstep⟩ := collectAux_mem hc hr₀
  obtain ⟨content, ms, hrf, hfm, hne, rfl⟩ := fileStep_some hstep
  refine ⟨hne, ?_⟩
  rw [fileMatches] at hfm
  have hpat : ∀ re,
      patternOf compile (rs.getD false) (cs.getD false) query = some re →
      ∀ l', (re.findIter l').Pairwise (fun a b => a.1 < b.1) := by
    intro re h2
    rw [patternOf] at h2
    by_cases hur : rs.getD false = true
    · rw [if_pos hur] at h2
      exact hro _ re h2
    · rw [Bool.not_eq_true] at hur
      rw [hur] at h2
      cases h2
  exact fileMatchesAux_sorted hfm
    (fun i line lms _ hl => lineMatchesOf_sorted hpat hl)
    (numberLines_pairwise 0 _)

/-- C10 witness: the two matches of `"ab"` in `"ab AB"` share line 1 with
strictly increasing starts. -/
theorem search_content_matches_ordered_witness :
    (⟨asciiBytes "r/a.md", asciiBytes "a.md",
      [⟨1, asciiBytes "ab AB", 0, 2⟩, ⟨1, asciiBytes "ab AB", 3, 5⟩]⟩
        : SearchResult).«matches» ≠ [] ∧
    (⟨asciiBytes "r/a.md", asciiBytes "a.md",
      [⟨1, asciiBytes "ab AB", 0, 2⟩, ⟨1, asciiBytes "ab AB", 3, 5⟩]⟩
        : SearchResult).«matches».Pairwise
      (fun m1 m2 => m1.line_number ≤ m2.line_number ∧
        (m1.line_number = m2.line_number → m1.match_start < m2.match_start)) :=
  search_content_matches_ordered exCompile exRead (asciiBytes "r") exTree
    (asciiBytes "ab") none none
    [⟨asciiBytes "r/a.md", asciiBytes "a.md",
      [⟨1, asciiBytes "ab AB", 0, 2⟩, ⟨1, asciiBytes "ab AB", 3, 5⟩]⟩]
    (fun p re hfail => nomatch hfail) rfl _ (by decide)

/-- C7: the output of `read_directory` is totally ordered with every
directory before every file and, within one kind, names non-decreasing
under case-insensitive byte comparison; entries of equal rank (same kind
and same folded name) keep their enumeration order (stability, expressed
as preservation of every equal-rank subsequence). -/
theorem read_directory_sorted (d : DirState) (l : List FileEntry)
    (h : read_directory d = .ok l) :
    l.Pairwise (fun a b => (b.is_directory = true → a.is_directory = true) ∧
      (a.is_directory = b.is_directory →
        cmpBytes (toLowercase a.name) (toLowercase b.name) ≠ .gt)) ∧
    ∀ b v, l.filter (fun e => e.is_directory == b && (toLowercase e.name == v)) =
      (rawFileEntries d).filter
        (fun e => e.is_directory == b && (toLowercase e.name == v)) := by
  rw [read_directory] at h
  by_cases h1 : d.pathExists = false
  · rw [if_pos h1] at h
    cases h
  · rw [if_neg h1] at h
    by_cases h2 : d.isDir = false
    · rw [if_pos h2] at h
      cases h
    · rw [if_neg h2] at h
      by_cases h3 : d.readOk = false
      · rw [if_pos h3] at h
        cases h
      · rw [if_neg h3] at h
        injection h with h
        subst h
        constructor
        · exact (stableSort_pairwise entryLe entryLe_total entryLe_trans _).imp
            (fun hab => ⟨fun hb => entryLe_dir hab hb, fun hk => entryLe_name hab hk⟩)
        · intro b v
          exact stableSort_filter entryLe _ entryLe_total entryLe_trans
            (entryLe_compat b v) _

/-- C7 witness: the example directory listing is sorted (directory `A`
first, then `a.txt` before `b.txt` case-insensitively) and the
equal-rank subsequences agree with the enumeration order. -/
theorem read_directory_sorted_witness :
    (stableSort entryLe (rawFileEntries exDirState)).Pairwise
      (fun a b => (b.is_directory = true → a.is_directory = true) ∧
        (a.is_directory = b.is_directory →
          cmpBytes (toLowercase a.name) (toLowercase b.name) ≠ .gt)) ∧
    (stableSort entryLe (rawFileEntries exDirState)).filter
        (fun e => e.is_directory == false && (toLowercase e.name == asciiBytes "a.txt")) =
      (rawFileEntries exDirState).filter
        (fun e => e.is_directory == false && (toLowercase e.name == asciiBytes "a.txt")) := by
  obtain ⟨h1, h2⟩ := read_directory_sorted exDirState
    (stableSort entryLe (rawFileEntries exDirState)) rfl
  exact ⟨h1, h2 false (asciiBytes "a.txt")⟩

/-- C8: `read_directory` fails with the `NotFound` message exactly when the
path does not exist, with the `NotADirectory` message when it exists but is
not a directory, and for a readable directory an entry whose metadata read
failed still appears in the successful listing with `metadata = none`. -/
theorem read_directory_errors (d : DirState) :
    (read_directory d = .error (asciiBytes "Directory does not exist: " ++ d.path) ↔
      d.pathExists = false) ∧
    (d.pathExists = true → d.isDir = false →
      read_directory d = .error (asciiBytes "Path is not a directory: " ++ d.path)) ∧
    (d.pathExists = true → d.isDir = true → d.readOk = true →
      ∃ l, read_directory d = .ok l ∧
        ∀ e : RawEntry, some e ∈ d.entries → startsWithDot e.name = false →
          e.metadata = none →
          (⟨e.name, e.path, e.isDir, if e.isDir then some [] else none, none⟩
            : FileEntry) ∈ l) := by
  refine ⟨⟨?_, ?_⟩, ?_, ?_⟩
  · intro h
    by_contra hc
    rw [Bool.not_eq_false] at hc
    rw [read_directory, if_neg (by rw [hc]; intro hcc; cases hcc)] at h
    by_cases h2 : d.isDir = false
    · rw [if_pos h2] at h
      injection h with h
      have hlen := congrArg List.length h
      rw [List.length_append, List.length_append] at hlen
      have c1 : (asciiBytes "Path is not a directory: ").length = 25 := by decide
      have c2 : (asciiBytes "Directory does not exist: ").length = 26 := by decide
      rw [c1, c2] at hlen
      omega
    · rw [if_neg h2] at h
      by_cases h3 : d.readOk = false
      · rw [if_pos h3] at h
        injection h with h
        have hF : (asciiBytes "Failed to read directory: " ++ d.readErr)[0]? = some 70 := by
          rw [List.getElem?_append_left (by decide)]
          decide
        have hD : (asciiBytes "Directory does not exist: " ++ d.path)[0]? = some 68 := by
          rw [List.getElem?_append_left (by decide)]
          decide
        rw [h] at hF
        rw [hD] at hF
        injection hF with hF
        cases hF
      · rw [if_neg h3] at h
        cases h
  · intro h
    rw [read_directory, if_pos h]
  · intro h1 h2
    rw [read_directory, if_neg (by rw [h1]; intro hcc; cases hcc), if_pos h2]
  · intro h1 h2 h3
    refine ⟨stableSort entryLe (rawFileEntries d), ?_, ?_⟩
    · rw [read_directory, if_neg (by rw [h1]; intro hcc; cases hcc),
        if_neg (by rw [h2]; intro hcc; cases hcc),
        if_neg (by rw [h3]; intro hcc; cases hcc)]
    · intro e hmem hhid hmeta
      have h4 : toFileEntry e ∈ rawFileEntries d := by
        rw [rawFileEntries]
        rw [List.mem_filterMap]
        refine ⟨e, ?_, ?_⟩
        · rw [List.mem_filterMap]
          exact ⟨some e, hmem, rfl⟩
        · rw [hhid]
          rfl
      have h5 : (⟨e.name, e.path, e.isDir, if e.isDir then some [] else none, none⟩
          : FileEntry) = toFileEntry e := by
        rw [toFileEntry, hmeta]
      rw [h5]
      exact ((stableSort_perm entryLe (rawFileEntries d)).mem_iff).mpr h4

/-- C8 witness: the three branches at the concrete example directory
state. -/
theorem read_directory_errors_witness :
    (read_directory exDirState =
        .error (asciiBytes "Directory does not exist: " ++ exDirState.path) ↔
      exDirState.pathExists = false) ∧
    (exDirState.pathExists = true → exDirState.isDir = false →
      read_directory exDirState =
        .error (asciiBytes "Path is not a directory: " ++ exDirState.path)) ∧
    (exDirState.pathExists = true → exDirState.isDir = true → exDirState.readOk = true →
      ∃ l, read_directory exDirState = .ok l ∧
        ∀ e : RawEntry, some e ∈ exDirState.entries → startsWithDot e.name = false →
          e.metadata = none →
          (⟨e.name, e.path, e.isDir, if e.isDir then some [] else none, none⟩
            : FileEntry) ∈ l) :=
  read_directory_errors exDirState

/-- C9: a successful `write_file` followed by `read_file` of the same path
returns exactly the written text (any byte string, including the empty
one). -/
theorem write_then_read_roundtrip (st : List (ByteStr × ByteStr)) (p s : ByteStr)
    (st' : List (ByteStr × ByteStr)) (hw : write_file st p s = (st', .ok ())) :
    read_file st' p = .ok s := by
  have hst : st' = (p, s) :: st := by
    have := congrArg Prod.fst hw
    simpa [write_file] using this.symm
  subst hst
  rw [read_file, fsLookup, if_pos rfl]

/-- C9 witness: writing `"hi"` to `/n.md` on the empty filesystem and
reading it back. -/
theorem write_then_read_roundtrip_witness :
    read_file [(asciiBytes "/n.md", asciiBytes "hi")] (asciiBytes "/n.md") =
      .ok (asciiBytes "hi") :=
  write_then_read_roundtrip [] (asciiBytes "/n.md") (asciiBytes "hi")
    [(asciiBytes "/n.md", asciiBytes "hi")] rfl

end TypeGodMD
